import Mathlib

/-!
Verification of the iznn spiking-neural-network core of neat-python
(src/neat/iznn/__init__.py), shallowly embedded in Lean 4.

Python floats are modelled as exact rationals.  The only arithmetic in the
source that can raise an error is the squaring `self.v ** 2` (CPython raises
OverflowError when a finite power result leaves the double range); we model
that by an explicit magnitude check of the exact square against 2^1024, the
smallest magnitude beyond every finite double.  Python dicts are modelled as
insertion-ordered association lists over integer keys.
-/

namespace Iznn

/-- Association-list lookup, the model of Python dict item access / dict.get. -/
def alookup {α : Type} (k : Int) : List (Int × α) → Option α
  | [] => none
  | (k', v) :: rest => if k' = k then some v else alookup k rest

/-- Association-list lookup with a default, the model of dict.get(k, d). -/
def alookupD {α : Type} (k : Int) (l : List (Int × α)) (d : α) : α :=
  (alookup k l).getD d

/-- Dict assignment d[k] = v: replace the value at an existing key in place,
otherwise append the new binding at the end (insertion order). -/
def assign {α : Type} : List (Int × α) → Int → α → List (Int × α)
  | [], k, v => [(k, v)]
  | (k', v') :: rest, k, v =>
      if k' = k then (k', v) :: rest else (k', v') :: assign rest k v

/-- Membrane-potential magnitude at which the squaring in the source overflows
a double: 2^1024 (every finite double square is below it). -/
def OVERFLOW_BOUND : ℚ := 2 ^ 1024

/-- IZNodeGene: the five evolvable float attributes of an iznn node gene. -/
structure IZNodeGene where
  bias : ℚ
  a : ℚ
  b : ℚ
  c : ℚ
  d : ℚ
deriving DecidableEq

/-- DefaultGenomeConfig: the configuration fields the iznn module reads. -/
structure DefaultGenomeConfig where
  input_keys : List Int
  output_keys : List Int
  compatibility_weight_coefficient : ℚ
deriving DecidableEq

/-- IZNodeGene.distance from the source: sum of absolute differences of
a, b, c, d (bias excluded) times the compatibility weight coefficient. -/
def IZNodeGene.distance (self other : IZNodeGene) (config : DefaultGenomeConfig) : ℚ :=
  (|self.a - other.a| + |self.b - other.b| +
   |self.c - other.c| + |self.d - other.d|) * config.compatibility_weight_coefficient

/-- IZNeuron: parameters, input list and mutable simulation state. -/
structure IZNeuron where
  a : ℚ
  b : ℚ
  c : ℚ
  d : ℚ
  bias : ℚ
  inputs : List (Int × ℚ)
  v : ℚ
  u : ℚ
  fired : ℚ
  current : ℚ
deriving DecidableEq

/-- IZNeuron.__init__: v = c, u = b * v, fired = 0.0, current = bias. -/
def IZNeuron.make (bias a b c d : ℚ) (inputs : List (Int × ℚ)) : IZNeuron :=
  { a := a, b := b, c := c, d := d, bias := bias, inputs := inputs
    v := c, u := b * c, fired := 0, current := bias }

/-- The try-block of IZNeuron.advance: two half-step Euler updates of v and
the update of u, in exact arithmetic; none models the OverflowError raised by
either of the two squarings of v. -/
def IZNeuron.integrate (n : IZNeuron) (dt_msec : ℚ) : Option (ℚ × ℚ) :=
  if OVERFLOW_BOUND ≤ n.v * n.v then none
  else
    let v1 := n.v + 1/2 * dt_msec * (4/100 * (n.v * n.v) + 5 * n.v + 140 - n.u + n.current)
    if OVERFLOW_BOUND ≤ v1 * v1 then none
    else
      let v2 := v1 + 1/2 * dt_msec * (4/100 * (v1 * v1) + 5 * v1 + 140 - n.u + n.current)
      let u2 := n.u + dt_msec * n.a * (n.b * v2 - n.u)
      some (v2, u2)

/-- IZNeuron.advance: integrate, on overflow reset v and u without producing a
spike, then set fired to 0 and apply the spike-and-reset branch when v > 30. -/
def IZNeuron.advance (n : IZNeuron) (dt_msec : ℚ) : IZNeuron :=
  let vu := match n.integrate dt_msec with
    | some p => p
    | none => (n.c, n.b * n.c)
  let n1 : IZNeuron := { n with v := vu.1, u := vu.2, fired := 0 }
  if 30 < n1.v then { n1 with fired := 1, v := n1.c, u := n1.u + n1.d } else n1

/-- IZNeuron.reset: restore all state variables. -/
def IZNeuron.reset (n : IZNeuron) : IZNeuron :=
  { n with v := n.c, u := n.b * n.c, fired := 0, current := n.bias }

/-- IZNN: the neuron dict (insertion-ordered), declared input and output key
sequences, and the externally supplied input values. -/
structure IZNN where
  neurons : List (Int × IZNeuron)
  inputs : List Int
  outputs : List Int
  input_values : List (Int × ℚ)
deriving DecidableEq

/-- IZNN.set_inputs: assert the value count matches the declared input keys
(none models the AssertionError, raised before any mutation), then assign
input_values[input_keys[i]] = values[i] over the zip. -/
def IZNN.set_inputs (net : IZNN) (values : List ℚ) : Option IZNN :=
  if values.length = net.inputs.length then
    some { net with
           input_values :=
             (net.inputs.zip values).foldl (fun m p => assign m p.1 p.2) net.input_values }
  else none

/-- IZNN.reset: reset every neuron; input_values is not cleared. -/
def IZNN.reset (net : IZNN) : IZNN :=
  { net with neurons := net.neurons.map (fun p => (p.1, p.2.reset)) }

/-- The inner loop of phase 1 of IZNN.advance: starting from the bias, add
ivalue * w for each (i, w) in the input list, where ivalue is the fired value
of neuron i when i is a neuron key and otherwise input_values[i].  Returns the
accumulated current together with the first unresolvable key, if any; on such
a KeyError the partial accumulation stands (the dict lookup raises after the
previous additions already happened). -/
def accumCurrent (neurons : List (Int × IZNeuron)) (ivals : List (Int × ℚ)) :
    ℚ → List (Int × ℚ) → ℚ × Option Int
  | acc, [] => (acc, none)
  | acc, (i, w) :: rest =>
    match alookup i neurons with
    | some ineuron => accumCurrent neurons ivals (acc + ineuron.fired * w) rest
    | none =>
      match alookup i ivals with
      | some ivalue => accumCurrent neurons ivals (acc + ivalue * w) rest
      | none => (acc, some i)

/-- Phase 1 of IZNN.advance: recompute every neuron's current in iteration
order, reading fired values through the full neuron dict.  On a KeyError the
neurons processed so far (including the failing one) keep their freshly
written currents and the rest are untouched. -/
def phase1 (whole : List (Int × IZNeuron)) (ivals : List (Int × ℚ)) :
    List (Int × IZNeuron) → List (Int × IZNeuron) × Option Int
  | [] => ([], none)
  | (k, n) :: rest =>
    let cu := accumCurrent whole ivals n.bias n.inputs
    let n' : IZNeuron := { n with current := cu.1 }
    match cu.2 with
    | some i => ((k, n') :: rest, some i)
    | none =>
      let r := phase1 whole ivals rest
      ((k, n') :: r.1, r.2)

/-- The return expression of IZNN.advance: the fired values of the output
keys in declared order; a missing output key is a KeyError. -/
def collectOutputs (ns : List (Int × IZNeuron)) : List Int → Except Int (List ℚ)
  | [] => Except.ok []
  | k :: ks =>
    match alookup k ns with
    | some n => (collectOutputs ns ks).map (fun rest => n.fired :: rest)
    | none => Except.error k

/-- IZNN.advance: phase 1 recomputes all currents from the previous step's
fired values, phase 2 advances every neuron once, and the fired values of the
output keys are returned in declared order.  The result carries the
post-call network (on error, the partially updated one the exception leaves
behind). -/
def IZNN.advance (net : IZNN) (dt_msec : ℚ) : Except Int (List ℚ) × IZNN :=
  let p := phase1 net.neurons net.input_values net.neurons
  match p.2 with
  | some i => (Except.error i, { net with neurons := p.1 })
  | none =>
    let ns2 := p.1.map (fun q => (q.1, q.2.advance dt_msec))
    (collectOutputs ns2 net.outputs, { net with neurons := ns2 })

/-- DefaultConnectionGene: the fields of a connection gene the iznn module
reads. -/
structure DefaultConnectionGene where
  weight : ℚ
  enabled : Bool
deriving DecidableEq

/-- IZGenome: node dict and connection dict (insertion-ordered), keyed by
node key and by (source, destination) pair respectively. -/
structure IZGenome where
  nodes : List (Int × IZNodeGene)
  connections : List ((Int × Int) × DefaultConnectionGene)
deriving DecidableEq

/-- Insert a key at the end of the list unless already present: the model of
adding one element to a Python set while recording insertion order. -/
def addKey (s : List Int) (k : Int) : List Int :=
  if s.contains k then s else s ++ [k]

/-- addKey over a list of keys. -/
def addKeys (s : List Int) (ks : List Int) : List Int :=
  ks.foldl addKey s

/-- One backward-reachability round: add the sources of the edges whose
destination is already in the set. -/
def growOnce (edges : List (Int × Int)) (s : List Int) : List Int :=
  addKeys s ((edges.filter (fun e => s.contains e.2)).map (fun e => e.1))

/-- Iterated backward-reachability rounds. -/
def growRounds (edges : List (Int × Int)) : Nat → List Int → List Int
  | 0, s => s
  | fuel + 1, s => growRounds edges fuel (growOnce edges s)

/-- Modelled from the spec: required_for_output lives in neat/graphs.py,
which is not among the provided sources.  Per the reachability contract it
returns exactly the output keys plus every node key that has a path to an
output key through zero or more enabled connections, traversed backward from
outputs toward inputs; input keys themselves are never included unless also
listed as outputs.  Iterating one round per enabled edge reaches the
backward-closure fixpoint. -/
def required_for_output (input_keys output_keys : List Int)
    (connections : List ((Int × Int) × DefaultConnectionGene)) : List Int :=
  let edges := (connections.filter (fun c => c.2.enabled)).map (fun c => c.1)
  (growRounds edges edges.length (addKeys [] output_keys)).filter
    (fun k => !(input_keys.contains k) || output_keys.contains k)

/-- The body of the node_inputs loop of IZNN.create: append (source, weight)
to the destination's pending input list, creating the entry if absent. -/
def addConnInput (m : List (Int × List (Int × ℚ))) (o : Int) (iw : Int × ℚ) :
    List (Int × List (Int × ℚ)) :=
  match alookup o m with
  | none => assign m o [iw]
  | some l => assign m o (l ++ [iw])

/-- The neuron-instantiation loop of IZNN.create: one IZNeuron per required
key, looking up its node gene (none models the KeyError when a required key
has no node gene) and its resolved input list (empty when absent). -/
def buildNeurons (genome : IZGenome) (node_inputs : List (Int × List (Int × ℚ))) :
    List Int → Option (List (Int × IZNeuron))
  | [] => some []
  | node_key :: rest =>
    match alookup node_key genome.nodes with
    | none => none
    | some ng =>
      (buildNeurons genome node_inputs rest).map (fun tail =>
        (node_key,
         IZNeuron.make ng.bias ng.a ng.b ng.c ng.d (alookupD node_key node_inputs [])) :: tail)

/-- The node_inputs loop of IZNN.create: skip disabled connections and
connections with no required endpoint, append the rest to their destination's
pending input list in insertion order. -/
def createNodeInputs (required : List Int)
    (connections : List ((Int × Int) × DefaultConnectionGene)) :
    List (Int × List (Int × ℚ)) :=
  connections.foldl
    (fun m cg =>
      if !cg.2.enabled then m
      else if !(required.contains cg.1.2) && !(required.contains cg.1.1) then m
      else addConnInput m cg.1.2 (cg.1.1, cg.2.weight)) []

/-- IZNN.create: compute the required set, gather the enabled connections
with a required endpoint into per-destination input lists in insertion order,
then instantiate one IZNeuron per required key. -/
def IZNN.create (genome : IZGenome) (genome_config : DefaultGenomeConfig) : Option IZNN :=
  let required := required_for_output genome_config.input_keys
    genome_config.output_keys genome.connections
  let node_inputs := createNodeInputs required genome.connections
  (buildNeurons genome node_inputs required).map
    (fun neurons => ⟨neurons, genome_config.input_keys, genome_config.output_keys, []⟩)

/-! Spec-side definitions, written from the specification text, used to state
the refinement-style claims about the code-side definitions above. -/

/-- Half-step Euler update of v from the spec:
v + 0.5 dt (0.04 v^2 + 5 v + 140 - u + current). -/
def halfStep (dt v u current : ℚ) : ℚ :=
  v + 1/2 * dt * (4/100 * (v * v) + 5 * v + 140 - u + current)

/-- Recovery-variable update from the spec: u + dt a (b v - u). -/
def recoveryStep (dt a b v u : ℚ) : ℚ :=
  u + dt * a * (b * v - u)

/-- Phase-1 current of one neuron, written from the spec: start from the
bias; for each (source, weight) input add weight times the source neuron's
fired value, or the externally supplied value when the source is not a
neuron key; none when a referenced key is unresolvable. -/
def currentSpec (neurons : List (Int × IZNeuron)) (ivals : List (Int × ℚ)) :
    ℚ → List (Int × ℚ) → Option ℚ
  | acc, [] => some acc
  | acc, (i, w) :: rest =>
    match alookup i neurons with
    | some m => currentSpec neurons ivals (acc + m.fired * w) rest
    | none =>
      match alookup i ivals with
      | some x => currentSpec neurons ivals (acc + x * w) rest
      | none => none

/-- The fired value a single output key should report after one synchronous
network step, written from the spec: freeze the current from the previous
step's fired values, then advance that neuron once. -/
def firedAfterSpec (net : IZNN) (dt : ℚ) (k : Int) : Option ℚ :=
  (alookup k net.neurons).bind (fun n =>
    (currentSpec net.neurons net.input_values n.bias n.inputs).map (fun cur =>
      (IZNeuron.advance { n with current := cur } dt).fired))

/-- Ordered traversal of an Option-valued function over keys: some list of
all the values exactly when every key resolves, in key order. -/
def collectSpec (f : Int → Option ℚ) : List Int → Option (List ℚ)
  | [] => some []
  | k :: ks =>
    match f k with
    | none => none
    | some x => (collectSpec f ks).map (fun rest => x :: rest)

/-- Input list a required node should receive, written from the spec: the
(source, weight) pairs of the enabled connections that target it and have an
endpoint in the required set, in connection insertion order. -/
def specInputs (required : List Int)
    (connections : List ((Int × Int) × DefaultConnectionGene)) (k : Int) :
    List (Int × ℚ) :=
  ((connections.filter (fun c =>
      c.2.enabled && (c.1.2 = k) && (required.contains c.1.1 || required.contains c.1.2))).map
    (fun c => (c.1.1, c.2.weight)))

/-- Phase-1 update of a single neuron: write the accumulated current. -/
def setCurrent (W : List (Int × IZNeuron)) (iv : List (Int × ℚ)) (n : IZNeuron) : IZNeuron :=
  { n with current := (accumCurrent W iv n.bias n.inputs).1 }

/-! Concrete values used by counterexamples and witnesses. -/

/-- Scenario A regular-spiking neuron with zero bias. -/
def spikingNeuron : IZNeuron := IZNeuron.make 0 (1/50) (1/5) (-65) 8 []

/-- A neuron whose state overflows the squaring and whose after-spike reset
potential c lies above the spike threshold. -/
def overflowSpikeNeuron : IZNeuron :=
  { a := 1/50, b := 1/5, c := 100, d := 8, bias := 0, inputs := [],
    v := 2 ^ 600, u := -13, fired := 0, current := 0 }

/-- A regular-spiking neuron whose membrane potential overflows the
squaring. -/
def overflowNeuron : IZNeuron :=
  { a := 1/50, b := 1/5, c := -65, d := 8, bias := 0, inputs := [],
    v := 2 ^ 600, u := -13, fired := 0, current := 0 }

/-- A degenerate neuron (all parameters zero) that spikes on its first
advance step. -/
def pulseNeuron : IZNeuron := IZNeuron.make 0 0 0 0 0 []

/-- A one-neuron network whose single neuron is also its output. -/
def pulseNet : IZNN := ⟨[(0, pulseNeuron)], [], [0], []⟩

/-- A self-connected neuron: reads its own fired value. -/
def loopNeuron : IZNeuron := IZNeuron.make 0 0 0 0 0 [(0, 1)]

/-- A network whose single neuron key 0 is also bound in input_values. -/
def loopNet : IZNN := ⟨[(0, loopNeuron)], [0], [0], [(0, 999)]⟩

/-- The same network with a different external binding for key 0. -/
def loopNetOther : IZNN := ⟨[(0, loopNeuron)], [0], [0], [(0, 5)]⟩

/-- A network whose neuron references the bound key -1 and the unbound key
-2, with a current field left over from an earlier step. -/
def haltedNet : IZNN :=
  ⟨[(0, { a := 1/50, b := 1/5, c := -65, d := 8, bias := 0,
          inputs := [(-1, 1), (-2, 1)], v := -60, u := -13, fired := 0,
          current := 99 })],
   [-1], [0], [(-1, 7)]⟩

/-- A neuron-free network with one declared input key. -/
def plainNet : IZNN := ⟨[], [-1], [], [(-1, 3)]⟩

/-- Scenario B genome: one output node gene, one enabled connection from
input -1 and one disabled connection from input -2. -/
def genomeB : IZGenome :=
  { nodes := [(0, ⟨0, 1/50, 1/5, -65, 8⟩)],
    connections := [((-1, 0), ⟨1, true⟩), ((-2, 0), ⟨1, false⟩)] }

/-- Scenario B configuration: inputs -1, -2 and output 0. -/
def cfgB : DefaultGenomeConfig := ⟨[-1, -2], [0], 1⟩

/-- The network Scenario B must build: one neuron, fed only by (-1, 1.0). -/
def netB : IZNN :=
  ⟨[(0, IZNeuron.make 0 (1/50) (1/5) (-65) 8 [(-1, 1)])], [-1, -2], [0], []⟩

/-- The state haltedNet is left in after its failing advance call. -/
def haltedNetAfter : IZNN :=
  ⟨[(0, { a := 1/50, b := 1/5, c := -65, d := 8, bias := 0,
          inputs := [(-1, 1), (-2, 1)], v := -60, u := -13, fired := 0,
          current := 7 })],
   [-1], [0], [(-1, 7)]⟩

/-! Helper lemmas. -/

theorem alookup_mem {α : Type} (k : Int) (l : List (Int × α)) (v : α)
    (h : alookup k l = some v) : (k, v) ∈ l := by
  induction l with
  | nil => simp [alookup] at h
  | cons p rest ih =>
    obtain ⟨k', v'⟩ := p
    by_cases hk : k' = k
    · subst hk
      simp [alookup] at h
      simp [h]
    · rw [alookup, if_neg hk] at h
      exact List.mem_cons_of_mem _ (ih h)

theorem mem_alookup {α : Type} (l : List (Int × α)) (hnd : (l.map Prod.fst).Nodup)
    (k : Int) (v : α) (h : (k, v) ∈ l) : alookup k l = some v := by
  induction l with
  | nil => simp at h
  | cons p rest ih =>
    obtain ⟨k', v'⟩ := p
    simp only [List.map_cons, List.nodup_cons] at hnd
    rcases List.mem_cons.mp h with he | hm
    · rw [Prod.mk.injEq] at he
      rw [alookup, if_pos he.1.symm, he.2]
    · have hk : k' ≠ k := by
        intro hkk
        subst hkk
        exact hnd.1 (List.mem_map.mpr ⟨(k', v), hm, rfl⟩)
      rw [alookup, if_neg hk]
      exact ih hnd.2 hm

theorem alookup_none_iff {α : Type} (k : Int) (l : List (Int × α)) :
    alookup k l = none ↔ k ∉ l.map Prod.fst := by
  induction l with
  | nil => simp [alookup]
  | cons p rest ih =>
    obtain ⟨k', v'⟩ := p
    by_cases hk : k' = k
    · subst hk
      simp [alookup]
    · rw [alookup, if_neg hk]
      simp only [List.map_cons, List.mem_cons, ih]
      constructor
      · rintro hn (he | hm)
        · exact hk he.symm
        · exact hn hm
      · intro hn
        exact fun hm => hn (Or.inr hm)

theorem alookup_perm {α : Type} (l l' : List (Int × α)) (hp : l.Perm l')
    (hnd : (l.map Prod.fst).Nodup) (k : Int) : alookup k l = alookup k l' := by
  cases h : alookup k l with
  | some v =>
    exact (mem_alookup l' ((hnd.perm (hp.map Prod.fst))) k v
      ((hp.mem_iff).mp (alookup_mem k l v h))).symm
  | none =>
    rw [alookup_none_iff] at h
    exact ((alookup_none_iff k l').mpr (fun hm =>
      h ((hp.map Prod.fst).mem_iff.mpr hm))).symm

theorem alookup_map {α β : Type} (k : Int) (l : List (Int × α)) (f : α → β) :
    alookup k (l.map (fun p => (p.1, f p.2))) = (alookup k l).map f := by
  induction l with
  | nil => simp [alookup]
  | cons p rest ih =>
    obtain ⟨k', v'⟩ := p
    by_cases hk : k' = k
    · subst hk
      simp [alookup]
    · simp only [List.map_cons, alookup, if_neg hk]
      exact ih

/-- accumCurrent depends on the neuron dict only through lookups. -/
theorem accumCurrent_congr (W W' : List (Int × IZNeuron)) (iv : List (Int × ℚ))
    (hW : ∀ k, alookup k W = alookup k W') :
    ∀ acc l, accumCurrent W iv acc l = accumCurrent W' iv acc l := by
  intro acc l
  induction l generalizing acc with
  | nil => rfl
  | cons p rest ih =>
    obtain ⟨i, w⟩ := p
    rw [accumCurrent, accumCurrent, hW i]
    cases alookup i W' with
    | some m => exact ih _
    | none =>
      cases alookup i iv with
      | some x => exact ih _
      | none => rfl

/-- accumCurrent consults input_values only at keys with no neuron. -/
theorem accumCurrent_iv_congr (W : List (Int × IZNeuron)) (iv iv' : List (Int × ℚ))
    (h : ∀ k, alookup k W = none → alookup k iv = alookup k iv') :
    ∀ acc l, accumCurrent W iv acc l = accumCurrent W iv' acc l := by
  intro acc l
  induction l generalizing acc with
  | nil => rfl
  | cons p rest ih =>
    obtain ⟨i, w⟩ := p
    rw [accumCurrent, accumCurrent]
    cases hW : alookup i W with
    | some m => exact ih _
    | none =>
      rw [← h i hW]
      cases alookup i iv with
      | some x => exact ih _
      | none => rfl

/-- An unresolvable key reported by accumCurrent is neither a neuron key nor
an input value and occurs in the scanned input list. -/
theorem accumCurrent_err (W : List (Int × IZNeuron)) (iv : List (Int × ℚ)) :
    ∀ acc l i, (accumCurrent W iv acc l).2 = some i →
      alookup i W = none ∧ alookup i iv = none ∧ ∃ w, (i, w) ∈ l := by
  intro acc l
  induction l generalizing acc with
  | nil => intro i h; simp [accumCurrent] at h
  | cons p rest ih =>
    obtain ⟨j, w⟩ := p
    intro i h
    rw [accumCurrent] at h
    cases h1 : alookup j W with
    | some m =>
      rw [h1] at h
      obtain ⟨hW, hiv, w', hm⟩ := ih _ i h
      exact ⟨hW, hiv, w', List.mem_cons_of_mem _ hm⟩
    | none =>
      rw [h1] at h
      cases h2 : alookup j iv with
      | some x =>
        rw [h2] at h
        obtain ⟨hW, hiv, w', hm⟩ := ih _ i h
        exact ⟨hW, hiv, w', List.mem_cons_of_mem _ hm⟩
      | none =>
        rw [h2] at h
        simp only [Option.some.injEq] at h
        subst h
        exact ⟨h1, h2, w, List.mem_cons_self _ _⟩

/-- Phase 1 succeeds exactly when every neuron's inputs resolve. -/
theorem phase1_err_none_iff (W : List (Int × IZNeuron)) (iv : List (Int × ℚ))
    (l : List (Int × IZNeuron)) :
    (phase1 W iv l).2 = none ↔
      ∀ p ∈ l, (accumCurrent W iv p.2.bias p.2.inputs).2 = none := by
  induction l with
  | nil => simp [phase1]
  | cons p rest ih =>
    obtain ⟨k, n⟩ := p
    rw [phase1]
    cases hc : (accumCurrent W iv n.bias n.inputs).2 with
    | some i => simp [hc]
    | none => simp [hc, ih]

/-- On success, phase 1 rewrites every neuron's current in place. -/
theorem phase1_eq_map (W : List (Int × IZNeuron)) (iv : List (Int × ℚ))
    (l : List (Int × IZNeuron)) (h : (phase1 W iv l).2 = none) :
    (phase1 W iv l).1 = l.map (fun p => (p.1, setCurrent W iv p.2)) := by
  induction l with
  | nil => rfl
  | cons p rest ih =>
    obtain ⟨k, n⟩ := p
    rw [phase1] at h ⊢
    cases hc : (accumCurrent W iv n.bias n.inputs).2 with
    | some i => rw [hc] at h; simp at h
    | none =>
      rw [hc] at h
      simp only at h
      rw [List.map_cons, ← ih h]
      rfl

/-- Phase 1 only ever rewrites current fields, whether or not it fails. -/
theorem phase1_forall2 (W : List (Int × IZNeuron)) (iv : List (Int × ℚ))
    (l : List (Int × IZNeuron)) :
    List.Forall₂ (fun p q => p.1 = q.1 ∧ q.2 = { p.2 with current := q.2.current })
      l (phase1 W iv l).1 := by
  induction l with
  | nil => exact List.Forall₂.nil
  | cons p rest ih =>
    obtain ⟨k, n⟩ := p
    rw [phase1]
    cases hc : (accumCurrent W iv n.bias n.inputs).2 with
    | some i =>
      exact List.Forall₂.cons ⟨rfl, rfl⟩
        ((List.forall₂_same).mpr (fun q _ => ⟨rfl, rfl⟩))
    | none => exact List.Forall₂.cons ⟨rfl, rfl⟩ ih

/-- A phase-1 error key is unresolvable and referenced by some neuron. -/
theorem phase1_err (W : List (Int × IZNeuron)) (iv : List (Int × ℚ))
    (l : List (Int × IZNeuron)) (i : Int) (h : (phase1 W iv l).2 = some i) :
    alookup i W = none ∧ alookup i iv = none ∧
      ∃ p ∈ l, ∃ w, (i, w) ∈ p.2.inputs := by
  induction l with
  | nil => simp [phase1] at h
  | cons p rest ih =>
    obtain ⟨k, n⟩ := p
    rw [phase1] at h
    cases hc : (accumCurrent W iv n.bias n.inputs).2 with
    | some j =>
      rw [hc] at h
      simp only [Option.some.injEq] at h
      subst h
      obtain ⟨hW, hiv, w, hm⟩ := accumCurrent_err W iv n.bias n.inputs _ hc
      exact ⟨hW, hiv, (k, n), List.mem_cons_self _ _, w, hm⟩
    | none =>
      rw [hc] at h
      simp only at h
      obtain ⟨hW, hiv, q, hq, w, hm⟩ := ih h
      exact ⟨hW, hiv, q, List.mem_cons_of_mem _ hq, w, hm⟩

/-- collectOutputs depends on the advanced neurons only through lookups. -/
theorem collectOutputs_congr (ns ns' : List (Int × IZNeuron))
    (h : ∀ k, alookup k ns = alookup k ns') :
    ∀ ks, collectOutputs ns ks = collectOutputs ns' ks := by
  intro ks
  induction ks with
  | nil => rfl
  | cons k rest ih =>
    rw [collectOutputs, collectOutputs, h k, ih]

/-- collectOutputs computes the ordered per-key fired values. -/
theorem collectOutputs_eq_collectSpec (ns : List (Int × IZNeuron)) :
    ∀ ks outs, collectOutputs ns ks = Except.ok outs ↔
      collectSpec (fun k => (alookup k ns).map IZNeuron.fired) ks = some outs := by
  intro ks
  induction ks with
  | nil =>
    intro outs
    rw [collectOutputs, collectSpec]
    constructor
    · intro h; rw [Except.ok.injEq] at h; rw [h]
    · intro h; rw [Option.some.injEq] at h; rw [h]
  | cons k rest ih =>
    intro outs
    rw [collectOutputs, collectSpec]
    cases hk : alookup k ns with
    | none => simp
    | some n =>
      cases hrest : collectOutputs ns rest with
      | error i =>
        have hmap : collectSpec (fun k => (alookup k ns).map IZNeuron.fired) rest = none := by
          cases hm : collectSpec (fun k => (alookup k ns).map IZNeuron.fired) rest with
          | none => rfl
          | some l => rw [(ih l).mpr hm] at hrest; cases hrest
        simp [hmap, Except.map]
      | ok l =>
        have hmap := (ih l).mp hrest
        simp [hmap, Except.map]

/-- collectSpec only depends on values at list members. -/
theorem collectSpec_congr (f g : Int → Option ℚ) :
    ∀ l : List Int, (∀ x ∈ l, f x = g x) → collectSpec f l = collectSpec g l := by
  intro l
  induction l with
  | nil => intro _; rfl
  | cons x rest ih =>
    intro h
    rw [collectSpec, collectSpec, h x (List.mem_cons_self _ _),
      ih (fun y hy => h y (List.mem_cons_of_mem _ hy))]

/-- currentSpec agrees with a successful accumCurrent run. -/
theorem currentSpec_eq (W : List (Int × IZNeuron)) (iv : List (Int × ℚ)) :
    ∀ acc l, (accumCurrent W iv acc l).2 = none →
      currentSpec W iv acc l = some (accumCurrent W iv acc l).1 := by
  intro acc l
  induction l generalizing acc with
  | nil => intro _; rfl
  | cons p rest ih =>
    obtain ⟨i, w⟩ := p
    intro h
    rw [accumCurrent] at h ⊢
    rw [currentSpec]
    cases h1 : alookup i W with
    | some m =>
      rw [h1] at h
      exact ih _ h
    | none =>
      rw [h1] at h
      cases h2 : alookup i iv with
      | some x =>
        rw [h2] at h
        exact ih _ h
      | none => rw [h2] at h; cases h

/-- IZNeuron.advance does not change the parameters or the input list. -/
theorem IZNeuron.advance_params (n : IZNeuron) (dt : ℚ) :
    (n.advance dt).a = n.a ∧ (n.advance dt).b = n.b ∧ (n.advance dt).c = n.c ∧
    (n.advance dt).d = n.d ∧ (n.advance dt).bias = n.bias ∧
    (n.advance dt).inputs = n.inputs ∧ (n.advance dt).current = n.current := by
  unfold IZNeuron.advance
  dsimp only
  split <;> exact ⟨rfl, rfl, rfl, rfl, rfl, rfl, rfl⟩

/-- IZNeuron.reset rebuilds the construction state of the same parameters. -/
theorem IZNeuron.reset_eq_make (n : IZNeuron) :
    n.reset = IZNeuron.make n.bias n.a n.b n.c n.d n.inputs := rfl

/-- Advancing any number of steps does not change the parameters. -/
theorem foldl_advance_params (dts : List ℚ) (n : IZNeuron) :
    (dts.foldl IZNeuron.advance n).a = n.a ∧ (dts.foldl IZNeuron.advance n).b = n.b ∧
    (dts.foldl IZNeuron.advance n).c = n.c ∧ (dts.foldl IZNeuron.advance n).d = n.d ∧
    (dts.foldl IZNeuron.advance n).bias = n.bias ∧
    (dts.foldl IZNeuron.advance n).inputs = n.inputs := by
  induction dts generalizing n with
  | nil => exact ⟨rfl, rfl, rfl, rfl, rfl, rfl⟩
  | cons dt dts ih =>
    have h := IZNeuron.advance_params n dt
    have h' := ih (n.advance dt)
    simp only [List.foldl_cons]
    exact ⟨h'.1.trans h.1, h'.2.1.trans h.2.1, h'.2.2.1.trans h.2.2.1,
      h'.2.2.2.1.trans h.2.2.2.1, h'.2.2.2.2.1.trans h.2.2.2.2.1,
      h'.2.2.2.2.2.trans h.2.2.2.2.2.1⟩

/-- Unfolding of IZNeuron.advance when integration succeeds. -/
theorem IZNeuron.advance_of_integrate (n : IZNeuron) (dt : ℚ) (vu : ℚ × ℚ)
    (h : n.integrate dt = some vu) :
    n.advance dt =
      if 30 < vu.1 then { n with fired := 1, v := n.c, u := vu.2 + n.d }
      else { n with fired := 0, v := vu.1, u := vu.2 } := by
  unfold IZNeuron.advance
  rw [h]

/-- Unfolding of IZNeuron.advance when integration overflows. -/
theorem IZNeuron.advance_of_overflow (n : IZNeuron) (dt : ℚ)
    (h : n.integrate dt = none) :
    n.advance dt =
      if 30 < n.c then { n with fired := 1, v := n.c, u := n.b * n.c + n.d }
      else { n with fired := 0, v := n.c, u := n.b * n.c } := by
  unfold IZNeuron.advance
  rw [h]

/-- Successful integration computes the two half-steps and the recovery
update. -/
theorem IZNeuron.integrate_eq_some (n : IZNeuron) (dt : ℚ)
    (h1 : n.v * n.v < OVERFLOW_BOUND)
    (h2 : halfStep dt n.v n.u n.current * halfStep dt n.v n.u n.current < OVERFLOW_BOUND) :
    n.integrate dt =
      some (halfStep dt (halfStep dt n.v n.u n.current) n.u n.current,
        recoveryStep dt n.a n.b (halfStep dt (halfStep dt n.v n.u n.current) n.u n.current) n.u) := by
  unfold IZNeuron.integrate
  unfold halfStep at h2
  rw [if_neg (not_le.mpr h1)]
  dsimp only
  rw [if_neg (not_le.mpr h2)]
  rfl

/-- collectSpec returns one value per key. -/
theorem collectSpec_length (f : Int → Option ℚ) :
    ∀ ks outs, collectSpec f ks = some outs → outs.length = ks.length := by
  intro ks
  induction ks with
  | nil =>
    intro outs h
    rw [collectSpec, Option.some.injEq] at h
    rw [← h]
    rfl
  | cons k rest ih =>
    intro outs h
    rw [collectSpec] at h
    cases hk : f k with
    | none => rw [hk] at h; cases h
    | some x =>
      rw [hk] at h
      dsimp only at h
      cases hr : collectSpec f rest with
      | none => rw [hr] at h; cases h
      | some l =>
        rw [hr] at h
        rw [show Option.map (fun rest => x :: rest) (some l) = some (x :: l) from rfl,
          Option.some.injEq] at h
        rw [← h, List.length_cons, List.length_cons, ih l hr]

/-- A successful IZNN.advance call went through phase 1 without an error. -/
theorem IZNN.advance_ok_phase1 (net : IZNN) (dt : ℚ) (outs : List ℚ) (net2 : IZNN)
    (h : net.advance dt = (Except.ok outs, net2)) :
    (phase1 net.neurons net.input_values net.neurons).2 = none := by
  unfold IZNN.advance at h
  rcases hp : phase1 net.neurons net.input_values net.neurons with ⟨ns1, err⟩
  rw [hp] at h
  cases err with
  | some i => simp at h
  | none => rfl

/-- When phase 1 succeeds, IZNN.advance is the two-phase map followed by
output collection. -/
theorem IZNN.advance_ok_char (net : IZNN) (dt : ℚ)
    (he : (phase1 net.neurons net.input_values net.neurons).2 = none) :
    net.advance dt =
      (collectOutputs (net.neurons.map (fun p =>
         (p.1, (setCurrent net.neurons net.input_values p.2).advance dt))) net.outputs,
       { net with neurons := net.neurons.map (fun p =>
         (p.1, (setCurrent net.neurons net.input_values p.2).advance dt)) }) := by
  unfold IZNN.advance
  rcases hp : phase1 net.neurons net.input_values net.neurons with ⟨ns1, err⟩
  cases err with
  | some i => rw [hp] at he; simp at he
  | none =>
    have h1 : ns1 = net.neurons.map (fun p =>
        (p.1, setCurrent net.neurons net.input_values p.2)) := by
      have h2 := phase1_eq_map net.neurons net.input_values net.neurons he
      rw [hp] at h2
      exact h2
    dsimp only
    rw [h1, List.map_map]
    rfl

/-- The synchronous-step spec value of an output key agrees with the fired
value of the corresponding advanced neuron. -/
theorem firedAfterSpec_eq (net : IZNN) (dt : ℚ)
    (he : (phase1 net.neurons net.input_values net.neurons).2 = none) (k : Int) :
    firedAfterSpec net dt k =
      (alookup k (net.neurons.map (fun p =>
        (p.1, (setCurrent net.neurons net.input_values p.2).advance dt)))).map
        IZNeuron.fired := by
  rw [alookup_map k net.neurons
    (fun n => (setCurrent net.neurons net.input_values n).advance dt)]
  cases hk : alookup k net.neurons with
  | none => rw [firedAfterSpec, hk]; rfl
  | some n =>
    have hmem := alookup_mem k net.neurons n hk
    have hacc := (phase1_err_none_iff net.neurons net.input_values net.neurons).mp
      he (k, n) hmem
    rw [firedAfterSpec, hk]
    simp only [Option.some_bind]
    rw [currentSpec_eq _ _ _ _ hacc]
    rfl

/-- phase1 only depends on input_values through accumCurrent. -/
theorem phase1_congr (W : List (Int × IZNeuron)) (iv iv' : List (Int × ℚ))
    (h : ∀ acc l, accumCurrent W iv acc l = accumCurrent W iv' acc l) :
    ∀ l, phase1 W iv l = phase1 W iv' l := by
  intro l
  induction l with
  | nil => rfl
  | cons p rest ih =>
    obtain ⟨k, n⟩ := p
    simp only [phase1]
    rw [h, ih]

/-- Dict assignment stores the value at the key. -/
theorem assign_lookup_self {α : Type} (m : List (Int × α)) (k : Int) (v : α) :
    alookup k (assign m k v) = some v := by
  induction m with
  | nil => simp [assign, alookup]
  | cons p rest ih =>
    obtain ⟨k', v'⟩ := p
    by_cases hk : k' = k
    · rw [assign, if_pos hk, alookup, if_pos hk]
    · rw [assign, if_neg hk, alookup, if_neg hk]
      exact ih

/-- Dict assignment leaves other keys unchanged. -/
theorem assign_lookup_other {α : Type} (m : List (Int × α)) (k j : Int) (v : α)
    (h : k ≠ j) : alookup j (assign m k v) = alookup j m := by
  induction m with
  | nil => simp [assign, alookup, if_neg h]
  | cons p rest ih =>
    obtain ⟨k', v'⟩ := p
    by_cases hk : k' = k
    · subst hk
      rw [assign, if_pos rfl, alookup, alookup, if_neg h, if_neg h]
    · rw [assign, if_neg hk, alookup, alookup, ih]

/-- Folding assignments whose keys avoid k leaves k's binding unchanged. -/
theorem foldl_assign_preserve (k : Int) :
    ∀ (pairs : List (Int × ℚ)) (m : List (Int × ℚ)), (∀ p ∈ pairs, p.1 ≠ k) →
      alookup k (pairs.foldl (fun acc p => assign acc p.1 p.2) m) = alookup k m := by
  intro pairs
  induction pairs with
  | nil => intro m _; rfl
  | cons p rest ih =>
    intro m h
    rw [List.foldl_cons, ih _ (fun q hq => h q (List.mem_cons_of_mem _ hq)),
      assign_lookup_other _ _ _ _ (h p (List.mem_cons_self _ _))]

/-- After the zip-assignment loop over distinct keys, each key is bound to
its positional value. -/
theorem foldl_assign_zip_lookup :
    ∀ (ks : List Int) (vs : List ℚ) (m : List (Int × ℚ)), ks.Nodup →
      ∀ (j : Nat) (k : Int) (v : ℚ), ks.get? j = some k → vs.get? j = some v →
        alookup k ((ks.zip vs).foldl (fun acc p => assign acc p.1 p.2) m) = some v := by
  intro ks
  induction ks with
  | nil => intro vs m _ j k v hk; cases j <;> cases hk
  | cons k0 rest ih =>
    intro vs m hnd j k v hk hv
    cases vs with
    | nil => cases j <;> cases hv
    | cons v0 vtail =>
      rw [List.zip_cons_cons, List.foldl_cons]
      rw [List.nodup_cons] at hnd
      cases j with
      | zero =>
        rw [List.get?_cons_zero, Option.some.injEq] at hk hv
        subst hk
        subst hv
        have hpres : ∀ p ∈ rest.zip vtail, p.1 ≠ k0 := by
          intro p hp hpk
          exact hnd.1 (by rw [← hpk]; exact (List.of_mem_zip hp).1)
        rw [foldl_assign_preserve k0 _ _ hpres]
        exact assign_lookup_self m k0 v0
      | succ j' =>
        rw [List.get?_cons_succ] at hk hv
        exact ih vtail _ hnd.2 j' k v hk hv

/-- Appending an input to a destination extends exactly that destination's
pending list. -/
theorem addConnInput_self (m : List (Int × List (Int × ℚ))) (o : Int) (x : Int × ℚ) :
    alookupD o (addConnInput m o x) [] = alookupD o m [] ++ [x] := by
  rw [addConnInput]
  cases hl : alookup o m with
  | none => rw [alookupD, alookupD, assign_lookup_self, hl]; rfl
  | some l => rw [alookupD, alookupD, assign_lookup_self, hl]; rfl

/-- Appending an input to a destination leaves other destinations alone. -/
theorem addConnInput_other (m : List (Int × List (Int × ℚ))) (o k : Int)
    (x : Int × ℚ) (h : o ≠ k) :
    alookupD k (addConnInput m o x) [] = alookupD k m [] := by
  rw [addConnInput]
  cases alookup o m with
  | none => rw [alookupD, alookupD, assign_lookup_other _ _ _ _ h]
  | some l => rw [alookupD, alookupD, assign_lookup_other _ _ _ _ h]

/-- A connection failing the spec filter contributes no input. -/
theorem specInputs_cons_of_neg (required : List Int)
    (cg : (Int × Int) × DefaultConnectionGene)
    (rest : List ((Int × Int) × DefaultConnectionGene)) (k : Int)
    (h : (cg.2.enabled && decide (cg.1.2 = k) &&
      (required.contains cg.1.1 || required.contains cg.1.2)) = false) :
    specInputs required (cg :: rest) k = specInputs required rest k := by
  rw [specInputs, specInputs]
  simp only [List.filter_cons, h]
  simp

/-- A connection passing the spec filter contributes its (source, weight). -/
theorem specInputs_cons_of_pos (required : List Int)
    (cg : (Int × Int) × DefaultConnectionGene)
    (rest : List ((Int × Int) × DefaultConnectionGene)) (k : Int)
    (h : (cg.2.enabled && decide (cg.1.2 = k) &&
      (required.contains cg.1.1 || required.contains cg.1.2)) = true) :
    specInputs required (cg :: rest) k =
      (cg.1.1, cg.2.weight) :: specInputs required rest k := by
  rw [specInputs, specInputs]
  simp only [List.filter_cons, h]
  simp

/-- The node_inputs fold assigns each destination exactly the enabled
connections with a required endpoint that target it, in insertion order. -/
theorem createNodeInputs_lookup (required : List Int) (k : Int) :
    ∀ (conns : List ((Int × Int) × DefaultConnectionGene))
      (m : List (Int × List (Int × ℚ))),
      alookupD k (conns.foldl
        (fun m cg =>
          if !cg.2.enabled then m
          else if !(required.contains cg.1.2) && !(required.contains cg.1.1) then m
          else addConnInput m cg.1.2 (cg.1.1, cg.2.weight)) m) [] =
        alookupD k m [] ++ specInputs required conns k := by
  intro conns
  induction conns with
  | nil =>
    intro m
    rw [List.foldl_nil, specInputs, List.filter_nil, List.map_nil, List.append_nil]
  | cons cg rest ih =>
    intro m
    obtain ⟨⟨ci, co⟩, g⟩ := cg
    rw [List.foldl_cons]
    dsimp only
    cases hen : g.enabled with
    | false =>
      rw [if_pos (show (!false) = true from rfl)]
      rw [ih, specInputs_cons_of_neg required _ rest k
        (by simp only [hen, Bool.false_and])]
    | true =>
      rw [if_neg (show ¬((!true) = true) from by simp)]
      cases hc1 : required.contains ci with
      | false =>
        cases hc2 : required.contains co with
        | false =>
          rw [if_pos (show (!false && !false) = true from rfl)]
          rw [ih, specInputs_cons_of_neg required _ rest k
            (by simp only [hc1, hc2, Bool.or_false, Bool.and_false])]
        | true =>
          rw [if_neg (show ¬((!true && !false) = true) from by simp)]
          by_cases hk : co = k
          · subst hk
            have hd : decide (co = co) = true := decide_eq_true rfl
            rw [ih, addConnInput_self,
              specInputs_cons_of_pos required _ rest co
                (by simp only [hen, hc2, hd, decide_True, Bool.true_and, Bool.or_true]),
              List.append_assoc, List.singleton_append]
          · have hd : decide (co = k) = false := decide_eq_false hk
            rw [ih, addConnInput_other _ _ _ _ hk,
              specInputs_cons_of_neg required _ rest k
                (by simp only [hd, Bool.and_false, Bool.false_and])]
      | true =>
        rw [if_neg (show ¬((!required.contains co && !true) = true) from by simp)]
        by_cases hk : co = k
        · subst hk
          have hd : decide (co = co) = true := decide_eq_true rfl
          rw [ih, addConnInput_self,
            specInputs_cons_of_pos required _ rest co
              (by simp only [hen, hc1, hd, decide_True, Bool.true_and, Bool.true_or]),
            List.append_assoc, List.singleton_append]
        · have hd : decide (co = k) = false := decide_eq_false hk
          rw [ih, addConnInput_other _ _ _ _ hk,
            specInputs_cons_of_neg required _ rest k
              (by simp only [hd, Bool.and_false, Bool.false_and])]

/-- A successful neuron-instantiation loop produces one neuron per key, in
key order, each built from its node gene and resolved input list. -/
theorem buildNeurons_ok (genome : IZGenome) (node_inputs : List (Int × List (Int × ℚ))) :
    ∀ ks ns, buildNeurons genome node_inputs ks = some ns →
      ns.map Prod.fst = ks ∧
      ∀ p ∈ ns, ∃ ng, alookup p.1 genome.nodes = some ng ∧
        p.2 = IZNeuron.make ng.bias ng.a ng.b ng.c ng.d (alookupD p.1 node_inputs []) := by
  intro ks
  induction ks with
  | nil =>
    intro ns h
    rw [buildNeurons, Option.some.injEq] at h
    subst h
    exact ⟨rfl, fun p hp => absurd hp (List.not_mem_nil p)⟩
  | cons k rest ih =>
    intro ns h
    rw [buildNeurons] at h
    cases hng : alookup k genome.nodes with
    | none => rw [hng] at h; cases h
    | some ng =>
      rw [hng] at h
      dsimp only at h
      cases hb : buildNeurons genome node_inputs rest with
      | none => rw [hb] at h; cases h
      | some tail =>
        rw [hb] at h
        rw [show Option.map _ (some tail) =
          some ((k, IZNeuron.make ng.bias ng.a ng.b ng.c ng.d
            (alookupD k node_inputs [])) :: tail) from rfl, Option.some.injEq] at h
        subst h
        obtain ⟨ih1, ih2⟩ := ih tail hb
        refine ⟨by rw [List.map_cons, ih1], ?_⟩
        intro p hp
        rcases List.mem_cons.mp hp with he | hm
        · subst he
          exact ⟨ng, hng, rfl⟩
        · exact ih2 p hm

/-- IZNN.create unfolded to its two stages. -/
theorem IZNN.create_eq (genome : IZGenome) (cfg : DefaultGenomeConfig) :
    IZNN.create genome cfg =
      (buildNeurons genome
        (createNodeInputs
          (required_for_output cfg.input_keys cfg.output_keys genome.connections)
          genome.connections)
        (required_for_output cfg.input_keys cfg.output_keys genome.connections)).map
        (fun neurons => ⟨neurons, cfg.input_keys, cfg.output_keys, []⟩) := rfl

/-- Each destination's gathered input list is exactly the spec filter. -/
theorem createNodeInputs_lookupD (required : List Int) (k : Int)
    (conns : List ((Int × Int) × DefaultConnectionGene)) :
    alookupD k (createNodeInputs required conns) [] = specInputs required conns k := by
  have h := createNodeInputs_lookup required k conns []
  rw [show alookupD k ([] : List (Int × List (Int × ℚ))) [] = [] from rfl,
    List.nil_append] at h
  exact h

/-! Claim theorems. -/

/-- C8: for every parameter tuple (bias, a, b, c, d), a freshly constructed
IZNeuron has v = c, u = b*c, fired = 0.0, current = bias, and after any
sequence of advance calls a single reset() restores exactly this state. -/
theorem izneuron_init_and_reset (bias a b c d : ℚ) (inputs : List (Int × ℚ)) :
    (IZNeuron.make bias a b c d inputs).v = c ∧
    (IZNeuron.make bias a b c d inputs).u = b * c ∧
    (IZNeuron.make bias a b c d inputs).fired = 0 ∧
    (IZNeuron.make bias a b c d inputs).current = bias ∧
    ∀ dts : List ℚ,
      (dts.foldl IZNeuron.advance (IZNeuron.make bias a b c d inputs)).reset =
        IZNeuron.make bias a b c d inputs := by
  refine ⟨rfl, rfl, rfl, rfl, fun dts => ?_⟩
  have h := foldl_advance_params dts (IZNeuron.make bias a b c d inputs)
  rw [IZNeuron.reset_eq_make, h.1, h.2.1, h.2.2.1, h.2.2.2.1, h.2.2.2.2.1, h.2.2.2.2.2]
  rfl

/-- C9: distance equals the coefficient-scaled sum of absolute differences of
a, b, c, d with bias excluded; it is zero on identical genes, symmetric, and
doubling the coefficient doubles the distance. -/
theorem iznodegene_distance_properties (x y : IZNodeGene) (cfg : DefaultGenomeConfig) (k : ℚ) :
    x.distance y cfg =
      (|x.a - y.a| + |x.b - y.b| + |x.c - y.c| + |x.d - y.d|) *
        cfg.compatibility_weight_coefficient ∧
    x.distance x cfg = 0 ∧
    x.distance y cfg = y.distance x cfg ∧
    ∀ i o : List Int,
      IZNodeGene.distance x y ⟨i, o, 2 * k⟩ = 2 * IZNodeGene.distance x y ⟨i, o, k⟩ := by
  refine ⟨rfl, ?_, ?_, fun i o => ?_⟩
  · simp [IZNodeGene.distance]
  · simp only [IZNodeGene.distance]
    rw [abs_sub_comm x.a y.a, abs_sub_comm x.b y.b, abs_sub_comm x.c y.c, abs_sub_comm x.d y.d]
  · simp only [IZNodeGene.distance]
    ring

/-- C3: when no overflow occurs, advance applies the half-step update twice
in sequence with the same current and unchanged u, then updates u with the
resulting v; fired = 1.0 iff the integrated v exceeds 30.0, in which case v
is reset to c and u is increased by exactly d over its pre-spike value,
otherwise fired = 0.0 and the integrated v, u stand. -/
theorem izneuron_advance_no_overflow (n : IZNeuron) (dt v1 v2 u2 : ℚ)
    (hv1 : v1 = halfStep dt n.v n.u n.current)
    (hv2 : v2 = halfStep dt v1 n.u n.current)
    (hu2 : u2 = recoveryStep dt n.a n.b v2 n.u)
    (h1 : n.v * n.v < OVERFLOW_BOUND)
    (h2 : v1 * v1 < OVERFLOW_BOUND) :
    ((n.advance dt).fired = 1 ↔ 30 < v2) ∧
    ((n.advance dt).fired = 0 ↔ ¬ 30 < v2) ∧
    (30 < v2 → n.advance dt = { n with fired := 1, v := n.c, u := u2 + n.d }) ∧
    (¬ 30 < v2 → n.advance dt = { n with fired := 0, v := v2, u := u2 }) := by
  subst hv1
  subst hv2
  subst hu2
  have hint := IZNeuron.integrate_eq_some n dt h1 h2
  have hadv := IZNeuron.advance_of_integrate n dt _ hint
  dsimp only at hadv
  by_cases h30 : 30 < halfStep dt (halfStep dt n.v n.u n.current) n.u n.current
  · rw [if_pos h30] at hadv
    rw [hadv]
    refine ⟨by simp [h30], by simp [h30], fun _ => rfl, fun h => absurd h30 h⟩
  · rw [if_neg h30] at hadv
    rw [hadv]
    refine ⟨by simp [h30], by simp [h30], fun h => absurd h h30, fun _ => rfl⟩

/-- Witness for C3: one advance step of the Scenario A neuron. -/
theorem izneuron_advance_no_overflow_witness :
    spikingNeuron.advance (1/20) =
      { spikingNeuron with
        fired := 0,
        v := -104239391/1600000,
        u := -104000239391/8000000000 } := by
  have h := (izneuron_advance_no_overflow spikingNeuron (1/20)
      (halfStep (1/20) spikingNeuron.v spikingNeuron.u spikingNeuron.current)
      (halfStep (1/20) (halfStep (1/20) spikingNeuron.v spikingNeuron.u spikingNeuron.current)
        spikingNeuron.u spikingNeuron.current)
      (recoveryStep (1/20) spikingNeuron.a spikingNeuron.b
        (halfStep (1/20) (halfStep (1/20) spikingNeuron.v spikingNeuron.u spikingNeuron.current)
          spikingNeuron.u spikingNeuron.current) spikingNeuron.u)
      rfl rfl rfl
      (by norm_num [spikingNeuron, IZNeuron.make, OVERFLOW_BOUND])
      (by norm_num [halfStep, spikingNeuron, IZNeuron.make, OVERFLOW_BOUND])).2.2.2
    (by norm_num [halfStep, spikingNeuron, IZNeuron.make])
  rw [h]
  norm_num [halfStep, recoveryStep, spikingNeuron, IZNeuron.make]

/-- Counterexample to C1: on overflow the source code falls through to the
spike check, so with c = 100 > 30 the overflow step reports fired = 1.0 and
u = b*c + d, not fired = 0.0 and u = b*c as the claim states. -/
theorem izneuron_overflow_spike_counterexample :
    overflowSpikeNeuron.integrate 1 = none ∧
    (overflowSpikeNeuron.advance 1).fired = 1 ∧
    (overflowSpikeNeuron.advance 1).u ≠ overflowSpikeNeuron.b * overflowSpikeNeuron.c := by
  have hint : overflowSpikeNeuron.integrate 1 = none := by
    norm_num [IZNeuron.integrate, OVERFLOW_BOUND, overflowSpikeNeuron]
  have hadv := IZNeuron.advance_of_overflow overflowSpikeNeuron 1 hint
  rw [if_pos (by norm_num [overflowSpikeNeuron])] at hadv
  rw [hadv]
  refine ⟨hint, rfl, by norm_num [overflowSpikeNeuron]⟩

/-- C1 (amended): when overflow occurs during integration and c ≤ 30, the
partial update is discarded: v = c, u = b*c, fired = 0.0, current unchanged
and no error propagates; when c > 30 the overflow reset itself triggers the
spike branch (see the counterexample). -/
theorem izneuron_advance_overflow_recovery (n : IZNeuron) (dt : ℚ)
    (hov : n.integrate dt = none) (hc : n.c ≤ 30) :
    n.advance dt = { n with fired := 0, v := n.c, u := n.b * n.c } := by
  rw [IZNeuron.advance_of_overflow n dt hov, if_neg (not_lt.mpr hc)]

/-- C2: a successful IZNN.advance computes every neuron's current from the
previous step's fired values (or the externally supplied input values), only
then advances every neuron once with those frozen currents, and returns the
fired values of the output keys in declared order, one per output key,
independently of the storage order of the neuron collection. -/
theorem iznn_advance_two_phase (net : IZNN) (dt : ℚ) (outs : List ℚ) (net2 : IZNN)
    (hnd : (net.neurons.map Prod.fst).Nodup)
    (h : net.advance dt = (Except.ok outs, net2)) :
    collectSpec (firedAfterSpec net dt) net.outputs = some outs ∧
    outs.length = net.outputs.length ∧
    ∀ ns : List (Int × IZNeuron), ns.Perm net.neurons →
      ((⟨ns, net.inputs, net.outputs, net.input_values⟩ : IZNN).advance dt).1 =
        Except.ok outs := by
  have he := IZNN.advance_ok_phase1 net dt outs net2 h
  have hchar := IZNN.advance_ok_char net dt he
  rw [hchar] at h
  have houts : collectOutputs (net.neurons.map (fun p =>
      (p.1, (setCurrent net.neurons net.input_values p.2).advance dt))) net.outputs =
      Except.ok outs := congrArg Prod.fst h
  have hspec : collectSpec (firedAfterSpec net dt) net.outputs = some outs := by
    rw [collectSpec_congr (firedAfterSpec net dt) _ net.outputs
      (fun k _ => firedAfterSpec_eq net dt he k)]
    exact ((collectOutputs_eq_collectSpec _ net.outputs outs).mp houts)
  refine ⟨hspec, collectSpec_length _ net.outputs outs hspec, ?_⟩
  intro ns hperm
  have hndns : (ns.map Prod.fst).Nodup := ((hperm.map Prod.fst).nodup_iff).mpr hnd
  have hlk : ∀ k, alookup k ns = alookup k net.neurons :=
    fun k => alookup_perm ns net.neurons hperm hndns k
  have haccum := accumCurrent_congr ns net.neurons net.input_values hlk
  have hsetc : ∀ n : IZNeuron,
      setCurrent ns net.input_values n = setCurrent net.neurons net.input_values n := by
    intro n
    unfold setCurrent
    rw [haccum]
  have he' : (phase1 ns net.input_values ns).2 = none := by
    rw [phase1_err_none_iff]
    intro p hp
    rw [haccum]
    exact (phase1_err_none_iff net.neurons net.input_values net.neurons).mp he p
      (hperm.mem_iff.mp hp)
  have hchar' := IZNN.advance_ok_char ⟨ns, net.inputs, net.outputs, net.input_values⟩ dt he'
  rw [hchar']
  have hmapeq : ns.map (fun p => (p.1, (setCurrent ns net.input_values p.2).advance dt)) =
      ns.map (fun p => (p.1, (setCurrent net.neurons net.input_values p.2).advance dt)) :=
    List.map_congr_left (fun p _ => by rw [hsetc])
  have hlk2 : ∀ k,
      alookup k (ns.map (fun p =>
        (p.1, (setCurrent ns net.input_values p.2).advance dt))) =
      alookup k (net.neurons.map (fun p =>
        (p.1, (setCurrent net.neurons net.input_values p.2).advance dt))) := by
    intro k
    rw [hmapeq,
      alookup_map k ns (fun n => (setCurrent net.neurons net.input_values n).advance dt),
      alookup_map k net.neurons
        (fun n => (setCurrent net.neurons net.input_values n).advance dt),
      hlk k]
  rw [collectOutputs_congr _ _ hlk2 net.outputs]
  exact houts

/-- The post-state of one advance step of the pulse network. -/
def pulseNetAfter : IZNN := ⟨[(0, { pulseNeuron with fired := 1 })], [], [0], []⟩

/-- Witness for C2 at the pulse network. -/
theorem iznn_advance_two_phase_witness :
    collectSpec (firedAfterSpec pulseNet 1) pulseNet.outputs = some [1] ∧
    ([(1 : ℚ)]).length = pulseNet.outputs.length ∧
    ((⟨[(0, pulseNeuron)], pulseNet.inputs, pulseNet.outputs,
        pulseNet.input_values⟩ : IZNN).advance 1).1 = Except.ok [1] := by
  have h := iznn_advance_two_phase pulseNet 1 [1] pulseNetAfter
    (by simp [pulseNet])
    (by norm_num [IZNN.advance, phase1, accumCurrent, collectOutputs, alookup,
      pulseNet, pulseNetAfter, pulseNeuron, IZNeuron.make, IZNeuron.advance,
      IZNeuron.integrate, OVERFLOW_BOUND, Except.map, setCurrent])
  exact ⟨h.1, h.2.1, h.2.2 [(0, pulseNeuron)] (List.Perm.refl _)⟩

/-- C10: a source key that is both a neuron key and an input_values key is
read from the neuron (its fired value); the externally supplied value for
that key has no influence on the step.  First conjunct: the per-input branch
taken when the key resolves to a neuron.  Remaining conjuncts: changing
input_values anywhere except at keys with no neuron leaves the whole advance
call unchanged. -/
theorem iznn_advance_neuron_precedence (net net' : IZNN) (dt : ℚ)
    (hn : net'.neurons = net.neurons) (hi : net'.inputs = net.inputs)
    (ho : net'.outputs = net.outputs)
    (hiv : ∀ k, alookup k net.neurons = none →
      alookup k net.input_values = alookup k net'.input_values) :
    (∀ (acc : ℚ) (i : Int) (w : ℚ) (rest : List (Int × ℚ)) (m : IZNeuron),
      alookup i net.neurons = some m →
      accumCurrent net.neurons net.input_values acc ((i, w) :: rest) =
        accumCurrent net.neurons net.input_values (acc + m.fired * w) rest) ∧
    (net.advance dt).1 = (net'.advance dt).1 ∧
    (net.advance dt).2.neurons = (net'.advance dt).2.neurons := by
  obtain ⟨ns', ins', outs', iv'⟩ := net'
  simp only at hn hi ho
  subst hn
  subst hi
  subst ho
  refine ⟨fun acc i w rest m hm => by rw [accumCurrent, hm], ?_, ?_⟩ <;>
  · have haccum := accumCurrent_iv_congr net.neurons net.input_values iv' hiv
    have hph := phase1_congr net.neurons net.input_values iv' haccum net.neurons
    unfold IZNN.advance
    dsimp only
    rw [← hph]
    rcases hp : phase1 net.neurons net.input_values net.neurons with ⟨ns1, err⟩
    cases err <;> rfl

/-- C7: the fired field is exactly 0.0 or 1.0 after construction and after
every completed IZNeuron.advance, IZNeuron.reset, IZNN.advance or IZNN.reset
call. -/
theorem fired_is_binary :
    (∀ (bias a b c d : ℚ) (inputs : List (Int × ℚ)),
      (IZNeuron.make bias a b c d inputs).fired = 0) ∧
    (∀ (n : IZNeuron) (dt : ℚ), (n.advance dt).fired = 0 ∨ (n.advance dt).fired = 1) ∧
    (∀ n : IZNeuron, n.reset.fired = 0) ∧
    (∀ (net : IZNN) (dt : ℚ) (outs : List ℚ) (net2 : IZNN),
      net.advance dt = (Except.ok outs, net2) →
      ∀ p ∈ net2.neurons, p.2.fired = 0 ∨ p.2.fired = 1) ∧
    (∀ net : IZNN, ∀ p ∈ net.reset.neurons, p.2.fired = 0) := by
  have hbin : ∀ (n : IZNeuron) (dt : ℚ),
      (n.advance dt).fired = 0 ∨ (n.advance dt).fired = 1 := by
    intro n dt
    unfold IZNeuron.advance
    dsimp only
    split
    · right; rfl
    · left; rfl
  refine ⟨fun _ _ _ _ _ _ => rfl, hbin, fun _ => rfl, ?_, ?_⟩
  · intro net dt outs net2 h p hp
    have he := IZNN.advance_ok_phase1 net dt outs net2 h
    rw [IZNN.advance_ok_char net dt he] at h
    have h2 := (congrArg Prod.snd h).symm
    simp only at h2
    rw [h2] at hp
    simp only [List.mem_map] at hp
    obtain ⟨q, _, hq⟩ := hp
    rw [← hq]
    exact hbin _ dt
  · intro net p hp
    simp only [IZNN.reset, List.mem_map] at hp
    obtain ⟨q, _, hq⟩ := hp
    rw [← hq]
    rfl

/-- Witness for C10 at a self-connected neuron whose key is also externally
bound, with two different external bindings. -/
theorem iznn_advance_neuron_precedence_witness :
    ((loopNet.advance 1).1 = (loopNetOther.advance 1).1 ∧
      (loopNet.advance 1).2.neurons = (loopNetOther.advance 1).2.neurons) := by
  have h := iznn_advance_neuron_precedence loopNet loopNetOther 1 rfl rfl rfl
    (by
      intro k hk
      by_cases h0 : (0 : Int) = k
      · simp only [loopNet, alookup, if_pos h0] at hk
        cases hk
      · simp only [loopNet, loopNetOther, alookup, if_neg h0])
  exact ⟨h.2.1, h.2.2⟩

/-- Witness for C7: each conjunct applied at a concrete state. -/
theorem fired_is_binary_witness :
    (IZNeuron.make 0 0 0 0 0 []).fired = 0 ∧
    ((pulseNeuron.advance 1).fired = 0 ∨ (pulseNeuron.advance 1).fired = 1) ∧
    spikingNeuron.reset.fired = 0 ∧
    (((0, { pulseNeuron with fired := 1 }) : Int × IZNeuron).2.fired = 0 ∨
      ((0, { pulseNeuron with fired := 1 }) : Int × IZNeuron).2.fired = 1) ∧
    ((0, pulseNeuron.reset) : Int × IZNeuron).2.fired = 0 := by
  refine ⟨fired_is_binary.1 0 0 0 0 0 [], fired_is_binary.2.1 pulseNeuron 1,
    fired_is_binary.2.2.1 spikingNeuron, ?_, ?_⟩
  · exact fired_is_binary.2.2.2.1 pulseNet 1 [1] pulseNetAfter
      (by norm_num [IZNN.advance, phase1, accumCurrent, collectOutputs, alookup,
        pulseNet, pulseNetAfter, pulseNeuron, IZNeuron.make, IZNeuron.advance,
        IZNeuron.integrate, OVERFLOW_BOUND, Except.map, setCurrent])
      (0, { pulseNeuron with fired := 1 })
      (by rw [pulseNetAfter]; exact List.mem_singleton.mpr rfl)
  · exact fired_is_binary.2.2.2.2 pulseNet (0, pulseNeuron.reset)
      (by rw [pulseNet, IZNN.reset]; exact List.mem_singleton.mpr rfl)

/-- Counterexample to C5: a missing input key aborts IZNN.advance with an
error naming the key, but the surviving network is neither unchanged nor
fully reset: the currents written before the failure persist. -/
theorem iznn_advance_missing_key_counterexample :
    (haltedNet.advance 1).1 = Except.error (-2) ∧
    (haltedNet.advance 1).2 ≠ haltedNet ∧
    (haltedNet.advance 1).2 ≠ haltedNet.reset := by
  have hadv : haltedNet.advance 1 = (Except.error (-2), haltedNetAfter) := by
    norm_num [IZNN.advance, phase1, accumCurrent, alookup, haltedNet, haltedNetAfter]
  refine ⟨by rw [hadv], ?_, ?_⟩
  · rw [hadv]
    intro h
    norm_num [haltedNetAfter, haltedNet] at h
  · rw [hadv]
    intro h
    norm_num [haltedNetAfter, haltedNet, IZNN.reset, IZNeuron.reset] at h

/-- C5 (amended): a missing input key aborts IZNN.advance with an error
identifying the key (never a silent zero default); the neurons' parameters,
input lists, v, u and fired values, the key order, the declared input and
output keys and input_values are all unchanged, but the current fields of
neurons processed before the failure may have been rewritten (harmless for a
retry, which overwrites every current). -/
theorem iznn_advance_missing_input (net : IZNN) (dt : ℚ) (i : Int)
    (h : (phase1 net.neurons net.input_values net.neurons).2 = some i) :
    (net.advance dt).1 = Except.error i ∧
    alookup i net.neurons = none ∧
    alookup i net.input_values = none ∧
    (∃ p ∈ net.neurons, ∃ w, (i, w) ∈ p.2.inputs) ∧
    (net.advance dt).2.inputs = net.inputs ∧
    (net.advance dt).2.outputs = net.outputs ∧
    (net.advance dt).2.input_values = net.input_values ∧
    List.Forall₂ (fun p q => p.1 = q.1 ∧ q.2 = { p.2 with current := q.2.current })
      net.neurons (net.advance dt).2.neurons := by
  have herr := phase1_err net.neurons net.input_values net.neurons i h
  have hadv : net.advance dt =
      (Except.error i,
       { net with neurons := (phase1 net.neurons net.input_values net.neurons).1 }) := by
    unfold IZNN.advance
    rcases hp : phase1 net.neurons net.input_values net.neurons with ⟨ns1, err⟩
    rw [hp] at h
    dsimp only at h
    subst h
    dsimp only
  refine ⟨by rw [hadv], herr.1, herr.2.1, herr.2.2, by rw [hadv], by rw [hadv],
    by rw [hadv], ?_⟩
  rw [hadv]
  exact phase1_forall2 net.neurons net.input_values net.neurons

/-- Witness for the amended C5 at the partially updated network. -/
theorem iznn_advance_missing_input_witness :
    (haltedNet.advance 1).1 = Except.error (-2) ∧
    alookup (-2) haltedNet.neurons = none ∧
    alookup (-2) haltedNet.input_values = none ∧
    (∃ p ∈ haltedNet.neurons, ∃ w, ((-2 : Int), w) ∈ p.2.inputs) ∧
    (haltedNet.advance 1).2.inputs = haltedNet.inputs ∧
    (haltedNet.advance 1).2.outputs = haltedNet.outputs ∧
    (haltedNet.advance 1).2.input_values = haltedNet.input_values ∧
    List.Forall₂ (fun p q => p.1 = q.1 ∧ q.2 = { p.2 with current := q.2.current })
      haltedNet.neurons (haltedNet.advance 1).2.neurons :=
  iznn_advance_missing_input haltedNet 1 (-2)
    (by norm_num [phase1, accumCurrent, alookup, haltedNet])

/-- C6: set_inputs with a mismatched value count fails before mutating
input_values; with a matching count it performs the positional assignments
input_values[input_keys[i]] = values[i], so that with distinct input keys
every key ends bound to its positional value. -/
theorem iznn_set_inputs_spec (net : IZNN) (values : List ℚ) :
    (values.length ≠ net.inputs.length → net.set_inputs values = none) ∧
    (values.length = net.inputs.length →
      net.set_inputs values = some { net with
        input_values := (net.inputs.zip values).foldl
          (fun m p => assign m p.1 p.2) net.input_values }) ∧
    (net.inputs.Nodup → ∀ net' : IZNN, net.set_inputs values = some net' →
      ∀ (j : Nat) (k : Int) (v : ℚ),
        net.inputs.get? j = some k → values.get? j = some v →
        alookup k net'.input_values = some v) := by
  refine ⟨fun hne => ?_, fun heq => ?_, fun hnd net' hsome j k v hk hv => ?_⟩
  · rw [IZNN.set_inputs, if_neg hne]
  · rw [IZNN.set_inputs, if_pos heq]
  · rw [IZNN.set_inputs] at hsome
    by_cases heq : values.length = net.inputs.length
    · rw [if_pos heq, Option.some.injEq] at hsome
      rw [← hsome]
      exact foldl_assign_zip_lookup net.inputs values net.input_values hnd j k v hk hv
    · rw [if_neg heq] at hsome
      cases hsome

/-- Witness for C6 at a one-input network. -/
theorem iznn_set_inputs_spec_witness :
    plainNet.set_inputs [] = none ∧
    plainNet.set_inputs [5] = some { plainNet with
      input_values := (plainNet.inputs.zip [5]).foldl
        (fun m p => assign m p.1 p.2) plainNet.input_values } ∧
    alookup (-1) (({ plainNet with
      input_values := (plainNet.inputs.zip [5]).foldl
        (fun m p => assign m p.1 p.2) plainNet.input_values } : IZNN).input_values) =
      some 5 := by
  refine ⟨(iznn_set_inputs_spec plainNet []).1 (by norm_num [plainNet]),
    (iznn_set_inputs_spec plainNet [5]).2.1 (by norm_num [plainNet]), ?_⟩
  exact (iznn_set_inputs_spec plainNet [5]).2.2 (by norm_num [plainNet]) _
    ((iznn_set_inputs_spec plainNet [5]).2.1 (by norm_num [plainNet])) 0 (-1) 5
    (by norm_num [plainNet]) rfl

/-- C4: a successful build has exactly one neuron per required key; each
neuron's input list is the insertion-ordered list of enabled connections with
a required endpoint that target it (duplicates kept, empty when none); the
declared key sequences are copied; and Scenario B builds one neuron for key 0
with input list [(-1, 1.0)]. -/
theorem iznn_create_spec (genome : IZGenome) (cfg : DefaultGenomeConfig) (net : IZNN)
    (h : IZNN.create genome cfg = some net) :
    net.neurons.map Prod.fst =
      required_for_output cfg.input_keys cfg.output_keys genome.connections ∧
    (∀ p ∈ net.neurons,
      p.2.inputs = specInputs
        (required_for_output cfg.input_keys cfg.output_keys genome.connections)
        genome.connections p.1) ∧
    net.inputs = cfg.input_keys ∧
    net.outputs = cfg.output_keys ∧
    IZNN.create genomeB cfgB = some netB := by
  rw [IZNN.create_eq] at h
  rcases Option.map_eq_some'.mp h with ⟨ns, hb, hnet⟩
  obtain ⟨h1, h2⟩ := buildNeurons_ok genome _ _ ns hb
  rw [← hnet]
  refine ⟨h1, ?_, rfl, rfl, rfl⟩
  intro p hp
  obtain ⟨ng, hng, hpeq⟩ := h2 p hp
  rw [hpeq]
  exact createNodeInputs_lookupD _ p.1 genome.connections

/-- Witness for C4 at the Scenario B genome. -/
theorem iznn_create_spec_witness :
    netB.neurons.map Prod.fst =
      required_for_output cfgB.input_keys cfgB.output_keys genomeB.connections ∧
    (∀ p ∈ netB.neurons,
      p.2.inputs = specInputs
        (required_for_output cfgB.input_keys cfgB.output_keys genomeB.connections)
        genomeB.connections p.1) ∧
    netB.inputs = cfgB.input_keys ∧
    netB.outputs = cfgB.output_keys ∧
    IZNN.create genomeB cfgB = some netB :=
  iznn_create_spec genomeB cfgB netB rfl

/-- Witness for the amended C1. -/
theorem izneuron_advance_overflow_recovery_witness :
    overflowNeuron.integrate 1 = none ∧ overflowNeuron.c ≤ 30 ∧
    overflowNeuron.advance 1 =
      { overflowNeuron with
        fired := 0,
        v := overflowNeuron.c,
        u := overflowNeuron.b * overflowNeuron.c } :=
  ⟨by norm_num [IZNeuron.integrate, OVERFLOW_BOUND, overflowNeuron],
   by norm_num [overflowNeuron],
   izneuron_advance_overflow_recovery overflowNeuron 1
     (by norm_num [IZNeuron.integrate, OVERFLOW_BOUND, overflowNeuron])
     (by norm_num [overflowNeuron])⟩

end Iznn
